import Mathlib

/-!
# Verification of the Chess-AI search and evaluation core (`chess_ai.py`)

This file gives a shallow embedding of the two algorithmic components of the
repository, the static evaluator `evaluate` and the alpha-beta search
`minimax`, and proves or refutes the specification's claims about them.

The board/rules representation (the `python-chess` library) is an external
collaborator of the repository; it is modelled abstractly by the structure
`Engine` below, whose fields are exactly the queries the source code makes:
legal-move enumeration, move application, game-over/checkmate/stalemate/check
tests, the side-to-move flag and its raw assignment, piece counts per kind and
colour, the occupant colours of the four centre squares, and a choice function
standing for `random.choice`.

Mutation is embedded by explicit state passing: a Python function that mutates
the board becomes a Lean function that also returns the resulting board.  The
`board.push(move)` / `board.pop()` pair of `python-chess` is snapshot-based:
`push` saves a full copy of the board state and `pop` restores that snapshot,
so in the embedding a `push`/recurse/`pop` block continues with the exact
pre-push board; the board returned by the recursive call is discarded, which
is precisely what the snapshot restore does.  Scores are rationals (all the
constants of the source are decimal literals) extended with the two infinities
`math.inf` used as loop sentinels and as the initial alpha-beta window.
-/

namespace ChessAI

/-- Scores: rationals together with the sentinels `-math.inf` (`⊥`) and
`math.inf` (`⊤`) that the source uses for the initial window and for the
running best of each loop. -/
abbrev Score : Type := WithBot (WithTop ℚ)

/-- Embeds a finite (rational) score, such as the value of `evaluate` or the
terminal constants `-9999`, `9999`, `-200`, `0`, into `Score`. -/
def toScore (q : ℚ) : Score := ((q : WithTop ℚ) : WithBot (WithTop ℚ))

/-- The capability surface the source consumes from the rules engine
(`python-chess`) plus the ambient randomness used by `random.choice`.
Colours follow the `python-chess` convention: `true` is White, `false` is
Black.  Piece kinds are numbered `0`..`5` in the order of the source's
`piece_values` dictionary (pawn, knight, bishop, rook, queen, king).
`centerColor b i` is the colour of the piece occupying the `i`-th centre
square (D4, D5, E4, E5), if any.  `setTurn` is the raw assignment
`board.turn = c`.  `choice` models `random.choice` on a nonempty list. -/
structure Engine (Pos Mv : Type) where
  legalMoves : Pos → List Mv
  push : Pos → Mv → Pos
  isGameOver : Pos → Bool
  isCheckmate : Pos → Bool
  isStalemate : Pos → Bool
  isCheck : Pos → Bool
  turn : Pos → Bool
  setTurn : Pos → Bool → Pos
  pieceCount : Pos → Fin 6 → Bool → Nat
  centerColor : Pos → Fin 4 → Option Bool
  choice : List Mv → Mv

variable {Pos Mv : Type}

/-- The `piece_values` table of the source: pawn 1, knight 3.2, bishop 3.3,
rook 5, queen 9, king 100. -/
def pieceValue (i : Fin 6) : ℚ :=
  match i.val with
  | 0 => 1
  | 1 => 3.2
  | 2 => 3.3
  | 3 => 5
  | 4 => 9
  | _ => 100

/-- The material loop of `evaluate`: for each piece kind, add the White count
times its weight and subtract the Black count times its weight. -/
def material (E : Engine Pos Mv) (b : Pos) : ℚ :=
  ((List.finRange 6).map (fun t =>
    (E.pieceCount b t true : ℚ) * pieceValue t
      - (E.pieceCount b t false : ℚ) * pieceValue t)).sum

/-- The `white_mobility` local of `evaluate`:
`len(list(board.legal_moves)) if board.turn == chess.WHITE else 0`. -/
def whiteMobility (E : Engine Pos Mv) (b : Pos) : Nat :=
  if E.turn b = true then (E.legalMoves b).length else 0

/-- The `black_mobility` local of `evaluate`: the number of legal moves after
the assignment `board.turn = chess.BLACK`. -/
def blackMobility (E : Engine Pos Mv) (b : Pos) : Nat :=
  (E.legalMoves (E.setTurn b false)).length

/-- The board state after the two turn assignments of `evaluate`'s mobility
section: `board.turn = chess.BLACK` followed by `board.turn = not board.turn`.
The centre-control and check queries of `evaluate`, and its returned board,
are all on this state. -/
def afterMobility (E : Engine Pos Mv) (b : Pos) : Pos :=
  E.setTurn (E.setTurn b false) (!E.turn (E.setTurn b false))

/-- The mobility contribution added to the score by `evaluate`:
`0.1 * (white_mobility - black_mobility)`. -/
def mobilityPart (E : Engine Pos Mv) (b : Pos) : ℚ :=
  0.1 * ((whiteMobility E b : ℚ) - (blackMobility E b : ℚ))

/-- The centre-control loop of `evaluate`: `+0.3` per centre square occupied
by White, `-0.3` per centre square occupied by Black. -/
def centerScore (E : Engine Pos Mv) (b : Pos) : ℚ :=
  ((List.finRange 4).map (fun i =>
    match E.centerColor b i with
    | some true => (0.3 : ℚ)
    | some false => (-0.3 : ℚ)
    | none => 0)).sum

/-- The check bonus of `evaluate`: a flat `+0.5` if `board.is_check()`. -/
def checkBonus (E : Engine Pos Mv) (b : Pos) : ℚ :=
  if E.isCheck b = true then 0.5 else 0

/-- The evaluator (source lines 9-48), in state-passing form: the Python
function mutates `board.turn` twice, so the embedding returns the score
together with the board state it leaves behind.  The statement order of the
source is kept: material on the original board, `white_mobility` on the
original board, `black_mobility` after `board.turn = chess.BLACK`, then
`board.turn = not board.turn`, and centre control and the check bonus on the
resulting board. -/
def evaluate (E : Engine Pos Mv) (b : Pos) : ℚ × Pos :=
  let score := material E b
  let b2 := afterMobility E b
  let score := score + mobilityPart E b
  let score := score + centerScore E b2
  let score := score + checkBonus E b2
  (score, b2)

/-- The terminal branch of `minimax` (source lines 56-63): checkmate scores
`-9999` when it is White's turn (White has been mated) and `9999` otherwise,
stalemate scores `-200`, every other game-over condition scores `0`; no move
is returned and the board is untouched. -/
def gameOverResult (E : Engine Pos Mv) (b : Pos) : Score × Option Mv × Pos :=
  if E.isCheckmate b = true then
    ((if E.turn b = true then toScore (-9999) else toScore 9999), none, b)
  else if E.isStalemate b = true then (toScore (-200), none, b)
  else (toScore 0, none, b)

/-- The `evaluate`-leaf branch of `minimax` (depth 0, and the defensive
empty-move-list branch): score from `evaluate`, no move, and the board state
`evaluate` leaves behind. -/
def evalResult (E : Engine Pos Mv) (b : Pos) : Score × Option Mv × Pos :=
  (toScore (evaluate E b).1, none, (evaluate E b).2)

/-- One maximizing loop of `minimax` (source lines 75-85), over the remaining
move list, carrying the current `alpha`, the running best score `max_eval`
and best move.  `cs m a` is the score of the recursive call on the child of
move `m` with the window `(a, beta)`.  Each iteration scores the child,
replaces the running best only on a strict improvement
(`if eval_score > max_eval`), updates `alpha = max(alpha, eval_score)` and
breaks when `beta <= alpha`. -/
def maxStep (cs : Mv → Score → Score) (beta : Score) :
    List Mv → Score → Score → Option Mv → Score × Option Mv
  | [], _, best, bm => (best, bm)
  | m :: ms, alpha, best, bm =>
    let s := cs m alpha
    let best2 := if best < s then s else best
    let bm2 := if best < s then some m else bm
    if beta ≤ max alpha s then (best2, bm2)
    else maxStep cs beta ms (max alpha s) best2 bm2

/-- One minimizing loop of `minimax` (source lines 90-100): dual to
`maxStep`, carrying the current `beta` and the running `min_eval`; `cs m bb`
is the recursive score for the window `(alpha, bb)`; `beta` is updated with
`min(beta, eval_score)` and the loop breaks when `beta <= alpha`. -/
def minStep (cs : Mv → Score → Score) (alpha : Score) :
    List Mv → Score → Score → Option Mv → Score × Option Mv
  | [], _, best, bm => (best, bm)
  | m :: ms, beta, best, bm =>
    let s := cs m beta
    let best2 := if s < best then s else best
    let bm2 := if s < best then some m else bm
    if min beta s ≤ alpha then (best2, bm2)
    else minStep cs alpha ms (min beta s) best2 bm2

/-- The post-loop fallback of `minimax` (source lines 86-87 and 101-102):
`if best_move is None: best_move = random.choice(legal_moves)`. -/
def fallback (E : Engine Pos Mv) (legal : List Mv) : Option Mv → Mv
  | some m => m
  | none => E.choice legal

/-- The search (source lines 54-103), in state-passing form: it returns the
`(score, move)` pair of the source together with the board state left behind.
Terminal positions are scored by `gameOverResult`; depth 0 and an empty legal
move list fall to `evalResult`; otherwise the maximizing or minimizing loop
runs over `list(board.legal_moves)` with the recursive calls at `depth - 1`
and the flipped flag, and the random fallback fills in the move if the loop
never improved on the sentinel.  The `push`/`pop` pair around each recursive
call is snapshot-based in `python-chess`, so the loop continues with (and the
call returns) the unchanged board `b`. -/
def minimax (E : Engine Pos Mv) (depth : Nat) (b : Pos)
    (alpha beta : Score) (maximizing : Bool) : Score × Option Mv × Pos :=
  if E.isGameOver b = true then gameOverResult E b
  else
    match depth with
    | 0 => evalResult E b
    | d + 1 =>
      let legal := E.legalMoves b
      if legal.isEmpty = true then evalResult E b
      else if maximizing = true then
        let r := maxStep (fun m a => (minimax E d (E.push b m) a beta false).1)
          beta legal alpha ⊥ none
        (r.1, some (fallback E legal r.2), b)
      else
        let r := minStep (fun m bb => (minimax E d (E.push b m) alpha bb true).1)
          alpha legal beta ⊤ none
        (r.1, some (fallback E legal r.2), b)

/-- Modelled from the spec: the comparison point of the alpha-beta
equivalence claim, "the same search with alpha-beta pruning disabled
(full-width minimax)".  The maximizing loop with the pruning break removed:
the window no longer influences anything, so only the strict-improvement
running best remains. -/
def fmaxStep (cs : Mv → Score) : List Mv → Score → Option Mv → Score × Option Mv
  | [], best, bm => (best, bm)
  | m :: ms, best, bm =>
    let s := cs m
    if best < s then fmaxStep cs ms s (some m) else fmaxStep cs ms best bm

/-- Modelled from the spec: the minimizing loop with the pruning break
removed, dual to `fmaxStep`. -/
def fminStep (cs : Mv → Score) : List Mv → Score → Option Mv → Score × Option Mv
  | [], best, bm => (best, bm)
  | m :: ms, best, bm =>
    let s := cs m
    if s < best then fminStep cs ms s (some m) else fminStep cs ms best bm

/-- Modelled from the spec: full-width minimax, i.e. `minimax` with the
alpha-beta pruning disabled (the `if beta <= alpha: break` lines removed);
all other branches are identical to `minimax`. -/
def fullMinimax (E : Engine Pos Mv) (depth : Nat) (b : Pos)
    (maximizing : Bool) : Score × Option Mv × Pos :=
  if E.isGameOver b = true then gameOverResult E b
  else
    match depth with
    | 0 => evalResult E b
    | d + 1 =>
      let legal := E.legalMoves b
      if legal.isEmpty = true then evalResult E b
      else if maximizing = true then
        let r := fmaxStep (fun m => (fullMinimax E d (E.push b m) false).1)
          legal ⊥ none
        (r.1, some (fallback E legal r.2), b)
      else
        let r := fminStep (fun m => (fullMinimax E d (E.push b m) true).1)
          legal ⊤ none
        (r.1, some (fallback E legal r.2), b)

/-- The best (largest) of a list of child scores, `⊥` for the empty list:
the value a maximizing full-width node computes. -/
def bestOf (cs : Mv → Score) (ms : List Mv) : Score := (ms.map cs).foldr max ⊥

/-- The worst (smallest) of a list of child scores, `⊤` for the empty list:
the value a minimizing full-width node computes. -/
def worstOf (cs : Mv → Score) (ms : List Mv) : Score := (ms.map cs).foldr min ⊤

/-- The mobility differential exactly as the specification words it:
`0.1 × (legal move count with White to move − legal move count with Black to
move)`, both counts obtained by setting the side to move. -/
def specMobility (E : Engine Pos Mv) (b : Pos) : ℚ :=
  0.1 * (((E.legalMoves (E.setTurn b true)).length : ℚ)
    - ((E.legalMoves (E.setTurn b false)).length : ℚ))

/-- A tiny concrete rules engine used to evaluate the theorems on explicit
inputs.  Positions are natural numbers: position `0` is a checkmate with
White to move, `1` a stalemate, `2` another game-over draw, `3` a
non-terminal position whose legal moves lead to positions `7` and `8`
(a move's number is the position it leads to), and every other position is a
non-terminal leaf.  Position `7` holds one White pawn, so its evaluation
differs from position `8`.  The turn flag is immaterial here and `setTurn`
is absorbing, as for a board object whose turn attribute is ignored. -/
def CE : Engine Nat Nat where
  legalMoves b := if b == 3 then [7, 8] else []
  push _ m := m
  isGameOver b := b == 0 || b == 1 || b == 2
  isCheckmate b := b == 0
  isStalemate b := b == 1
  isCheck _ := false
  turn b := b == 0
  setTurn b _ := b
  pieceCount b t c := if b == 7 && c == true && t.val == 0 then 1 else 0
  centerColor _ _ := none
  choice _ := 99

/-- A concrete engine whose position IS its side-to-move flag: `setTurn`
replaces the state and `turn` reads it, exactly as the mutable `board.turn`
attribute of `python-chess`.  White (`true`) has one legal move, Black
(`false`) has none; the position is never game over; there is no material.
It exhibits the side-to-move behaviour of `evaluate` on a position with
Black to move. -/
def BE : Engine Bool Nat where
  legalMoves b := if b then [5] else []
  push _ _ := true
  isGameOver _ := false
  isCheckmate _ := false
  isStalemate _ := false
  isCheck _ := false
  turn b := b
  setTurn _ c := c
  pieceCount _ _ _ := 0
  centerColor _ _ := none
  choice _ := 0

end ChessAI

namespace ChessAI

variable {Pos Mv : Type}

/-- A finite score is strictly below the `math.inf` sentinel. -/
theorem toScore_lt_top (q : ℚ) : toScore q < ⊤ := by
  rw [show (⊤ : Score) = (((⊤ : WithTop ℚ)) : WithBot (WithTop ℚ)) from rfl]
  exact WithBot.coe_lt_coe.mpr (WithTop.coe_lt_top q)

/-- A finite score is strictly above the `-math.inf` sentinel. -/
theorem bot_lt_toScore (q : ℚ) : ⊥ < toScore q := WithBot.bot_lt_coe _

/-- A score strictly between the two sentinels is a finite rational. -/
theorem exists_toScore {s : Score} (h1 : ⊥ < s) (h2 : s < ⊤) :
    ∃ q : ℚ, s = toScore q := by
  rcases s with _ | s
  · exact absurd h1 (lt_irrefl _)
  · rcases s with _ | q
    · exact absurd h2 (lt_irrefl _)
    · exact ⟨q, rfl⟩

/-- The strict-improvement update of the maximizing loop computes a maximum. -/
theorem if_lt_eq_max (best s : Score) : (if best < s then s else best) = max best s := by
  rcases lt_or_ge best s with h | h
  · simp [h, max_eq_right h.le]
  · simp [not_lt.mpr h, max_eq_left h]

/-- The strict-improvement update of the minimizing loop computes a minimum. -/
theorem if_lt_eq_min (best s : Score) : (if s < best then s else best) = min best s := by
  rcases lt_or_ge s best with h | h
  · simp [h, min_eq_right h.le]
  · simp [not_lt.mpr h, min_eq_left h]

/-- In a linear order, `max` below a bound commutes with `min` at the bound. -/
theorem max_min_comm_of_le (a b r : Score) (h : a ≤ b) :
    max a (min b r) = min b (max a r) := by
  rcases le_total r a with h1 | h1
  · rw [min_eq_right (h1.trans h), max_eq_left h1, min_eq_right h]
  · rcases le_total r b with h2 | h2
    · rw [min_eq_right h2, max_eq_right h1, min_eq_right h2]
    · rw [min_eq_left h2, max_eq_right h, max_eq_right (h.trans h2), min_eq_left h2]

/-- Clamping to the window absorbs an accumulator that is at most `alpha`. -/
theorem clamp_absorb_left {best a beta : Score} (x : Score)
    (hba : best ≤ a) (hab : a < beta) :
    max a (min beta (max best x)) = max a (min beta x) := by
  rcases le_total x best with h | h
  · rw [max_eq_left h, min_eq_right (hba.trans hab.le), max_eq_left hba,
      max_eq_left ((min_le_right beta x).trans (h.trans hba))]
  · rw [max_eq_right h]

/-- Clamping to the window absorbs an accumulator that is at least `beta`. -/
theorem clamp_absorb_right {best b alpha : Score} (x : Score)
    (hba : b ≤ best) (hab : alpha < b) :
    min b (max alpha (min best x)) = min b (max alpha x) := by
  rcases le_total best x with h | h
  · rw [min_eq_left h, max_eq_right (hab.le.trans hba), min_eq_left hba,
      min_eq_left (hba.trans (h.trans (le_max_right alpha x)))]
  · rw [min_eq_right h]

/-- The maximizing loop returns a score at least its running best. -/
theorem maxStep_fst_ge (cs : Mv → Score → Score) (beta : Score) :
    ∀ (ms : List Mv) (alpha best : Score) (bm : Option Mv),
      best ≤ (maxStep cs beta ms alpha best bm).1 := by
  intro ms
  induction ms with
  | nil => intro alpha best bm; simp [maxStep]
  | cons m ms ih =>
    intro alpha best bm
    simp only [maxStep, if_lt_eq_max]
    by_cases h : beta ≤ max alpha (cs m alpha)
    · simp [h, le_max_left]
    · simp only [h, if_false]
      exact (le_max_left best (cs m alpha)).trans
        (ih (max alpha (cs m alpha)) (max best (cs m alpha)) _)

/-- The minimizing loop returns a score at most its running best. -/
theorem minStep_fst_le (cs : Mv → Score → Score) (alpha : Score) :
    ∀ (ms : List Mv) (beta best : Score) (bm : Option Mv),
      (minStep cs alpha ms beta best bm).1 ≤ best := by
  intro ms
  induction ms with
  | nil => intro beta best bm; simp [minStep]
  | cons m ms ih =>
    intro beta best bm
    simp only [minStep, if_lt_eq_min]
    by_cases h : min beta (cs m beta) ≤ alpha
    · simp [h, min_le_left]
    · simp only [h, if_false]
      exact (ih (min beta (cs m beta)) (min best (cs m beta)) _).trans
        (min_le_left best (cs m beta))

/-- The score of the maximizing loop is its running best or one of the child
scores it examined. -/
theorem maxStep_fst_mem (cs : Mv → Score → Score) (beta : Score) :
    ∀ (ms : List Mv) (alpha best : Score) (bm : Option Mv),
      (maxStep cs beta ms alpha best bm).1 = best ∨
        ∃ m a, (maxStep cs beta ms alpha best bm).1 = cs m a := by
  intro ms
  induction ms with
  | nil => intro alpha best bm; simp [maxStep]
  | cons m ms ih =>
    intro alpha best bm
    simp only [maxStep, if_lt_eq_max]
    by_cases h : beta ≤ max alpha (cs m alpha)
    · simp only [h, if_true]
      rcases le_total (cs m alpha) best with h2 | h2
      · left; exact max_eq_left h2
      · right; exact ⟨m, alpha, max_eq_right h2⟩
    · simp only [h, if_false]
      rcases ih (max alpha (cs m alpha)) (max best (cs m alpha)) (if best < cs m alpha then some m else bm) with h3 | h3
      · rcases le_total (cs m alpha) best with h2 | h2
        · left; rw [h3]; exact max_eq_left h2
        · right; exact ⟨m, alpha, by rw [h3]; exact max_eq_right h2⟩
      · right; exact h3

/-- Unfolding of `minimax` at depth `0`. -/
theorem minimax_zero (E : Engine Pos Mv) (b : Pos) (alpha beta : Score) (mzx : Bool) :
    minimax E 0 b alpha beta mzx =
      if E.isGameOver b = true then gameOverResult E b else evalResult E b := rfl

/-- Unfolding of `minimax` at a successor depth. -/
theorem minimax_succ (E : Engine Pos Mv) (d : Nat) (b : Pos) (alpha beta : Score)
    (mzx : Bool) :
    minimax E (d + 1) b alpha beta mzx =
      if E.isGameOver b = true then gameOverResult E b
      else if (E.legalMoves b).isEmpty = true then evalResult E b
      else if mzx = true then
        ((maxStep (fun m a => (minimax E d (E.push b m) a beta false).1)
            beta (E.legalMoves b) alpha ⊥ none).1,
          some (fallback E (E.legalMoves b)
            (maxStep (fun m a => (minimax E d (E.push b m) a beta false).1)
              beta (E.legalMoves b) alpha ⊥ none).2), b)
      else
        ((minStep (fun m bb => (minimax E d (E.push b m) alpha bb true).1)
            alpha (E.legalMoves b) beta ⊤ none).1,
          some (fallback E (E.legalMoves b)
            (minStep (fun m bb => (minimax E d (E.push b m) alpha bb true).1)
              alpha (E.legalMoves b) beta ⊤ none).2), b) := rfl

/-- Unfolding of `fullMinimax` at depth `0`. -/
theorem fullMinimax_zero (E : Engine Pos Mv) (b : Pos) (mzx : Bool) :
    fullMinimax E 0 b mzx =
      if E.isGameOver b = true then gameOverResult E b else evalResult E b := rfl

/-- Unfolding of `fullMinimax` at a successor depth. -/
theorem fullMinimax_succ (E : Engine Pos Mv) (d : Nat) (b : Pos) (mzx : Bool) :
    fullMinimax E (d + 1) b mzx =
      if E.isGameOver b = true then gameOverResult E b
      else if (E.legalMoves b).isEmpty = true then evalResult E b
      else if mzx = true then
        ((fmaxStep (fun m => (fullMinimax E d (E.push b m) false).1)
            (E.legalMoves b) ⊥ none).1,
          some (fallback E (E.legalMoves b)
            (fmaxStep (fun m => (fullMinimax E d (E.push b m) false).1)
              (E.legalMoves b) ⊥ none).2), b)
      else
        ((fminStep (fun m => (fullMinimax E d (E.push b m) true).1)
            (E.legalMoves b) ⊤ none).1,
          some (fallback E (E.legalMoves b)
            (fminStep (fun m => (fullMinimax E d (E.push b m) true).1)
              (E.legalMoves b) ⊤ none).2), b) := rfl

/-- The score of the minimizing loop is its running best or one of the child
scores it examined. -/
theorem minStep_fst_mem (cs : Mv → Score → Score) (alpha : Score) :
    ∀ (ms : List Mv) (beta best : Score) (bm : Option Mv),
      (minStep cs alpha ms beta best bm).1 = best ∨
        ∃ m bb, (minStep cs alpha ms beta best bm).1 = cs m bb := by
  intro ms
  induction ms with
  | nil => intro beta best bm; simp [minStep]
  | cons m ms ih =>
    intro beta best bm
    simp only [minStep, if_lt_eq_min]
    by_cases h : min beta (cs m beta) ≤ alpha
    · simp only [h, if_true]
      rcases le_total best (cs m beta) with h2 | h2
      · left; exact min_eq_left h2
      · right; exact ⟨m, beta, min_eq_right h2⟩
    · simp only [h, if_false]
      rcases ih (min beta (cs m beta)) (min best (cs m beta)) (if cs m beta < best then some m else bm) with h3 | h3
      · rcases le_total best (cs m beta) with h2 | h2
        · left; rw [h3]; exact min_eq_left h2
        · right; exact ⟨m, beta, by rw [h3]; exact min_eq_right h2⟩
      · right; exact h3

/-- The full-width maximizing loop computes the maximum of its running best
and the remaining child scores. -/
theorem fmaxStep_fst (cs : Mv → Score) :
    ∀ (ms : List Mv) (best : Score) (bm : Option Mv),
      (fmaxStep cs ms best bm).1 = max best (bestOf cs ms) := by
  intro ms
  induction ms with
  | nil => intro best bm; simp [fmaxStep, bestOf]
  | cons m ms ih =>
    intro best bm
    simp only [fmaxStep, bestOf, List.map_cons, List.foldr_cons] at ih ⊢
    by_cases h : best < cs m
    · rw [if_pos h, ih, ← max_assoc, max_eq_right h.le]
    · rw [if_neg h, ih, ← max_assoc, max_eq_left (not_lt.mp h)]

/-- The full-width minimizing loop computes the minimum of its running best
and the remaining child scores. -/
theorem fminStep_fst (cs : Mv → Score) :
    ∀ (ms : List Mv) (best : Score) (bm : Option Mv),
      (fminStep cs ms best bm).1 = min best (worstOf cs ms) := by
  intro ms
  induction ms with
  | nil => intro best bm; simp [fminStep, worstOf]
  | cons m ms ih =>
    intro best bm
    simp only [fminStep, worstOf, List.map_cons, List.foldr_cons] at ih ⊢
    by_cases h : cs m < best
    · rw [if_pos h, ih, ← min_assoc, min_eq_right h.le]
    · rw [if_neg h, ih, ← min_assoc, min_eq_left (not_lt.mp h)]

/-- The maximum of finitely many scores below `⊤` stays below `⊤`. -/
theorem bestOf_lt_top {cs : Mv → Score} (h : ∀ m, cs m < ⊤) :
    ∀ ms : List Mv, bestOf cs ms < ⊤ := by
  intro ms
  induction ms with
  | nil => simp [bestOf]
  | cons m ms ih =>
    simp only [bestOf, List.map_cons, List.foldr_cons] at ih ⊢
    exact max_lt (h m) ih

/-- The maximum over a nonempty move list of scores above `⊥` is above `⊥`. -/
theorem bot_lt_bestOf {cs : Mv → Score} (h : ∀ m, ⊥ < cs m)
    (m : Mv) (ms : List Mv) : ⊥ < bestOf cs (m :: ms) := by
  simp only [bestOf, List.map_cons, List.foldr_cons]
  exact lt_max_of_lt_left (h m)

/-- The minimum of finitely many scores above `⊥` stays above `⊥`. -/
theorem bot_lt_worstOf {cs : Mv → Score} (h : ∀ m, ⊥ < cs m) :
    ∀ ms : List Mv, ⊥ < worstOf cs ms := by
  intro ms
  induction ms with
  | nil => simp [worstOf]
  | cons m ms ih =>
    simp only [worstOf, List.map_cons, List.foldr_cons] at ih ⊢
    exact lt_min (h m) ih

/-- The minimum over a nonempty move list of scores below `⊤` is below `⊤`. -/
theorem worstOf_lt_top {cs : Mv → Score} (h : ∀ m, cs m < ⊤)
    (m : Mv) (ms : List Mv) : worstOf cs (m :: ms) < ⊤ := by
  simp only [worstOf, List.map_cons, List.foldr_cons]
  exact min_lt_of_left_lt (h m)

/-- The maximizing loop never discards a move already recorded. -/
theorem maxStep_snd_isSome (cs : Mv → Score → Score) (beta : Score) :
    ∀ (ms : List Mv) (alpha best : Score) (bm : Option Mv),
      bm.isSome = true → ((maxStep cs beta ms alpha best bm).2).isSome = true := by
  intro ms
  induction ms with
  | nil => intro alpha best bm h; simpa [maxStep] using h
  | cons m ms ih =>
    intro alpha best bm h
    simp only [maxStep]
    by_cases hbr : beta ≤ max alpha (cs m alpha)
    · rw [if_pos hbr]
      by_cases hb : best < cs m alpha
      · simp [hb]
      · simpa [hb] using h
    · rw [if_neg hbr]
      apply ih
      by_cases hb : best < cs m alpha
      · simp [hb]
      · simpa [hb] using h

/-- Starting the maximizing loop from the `-math.inf` sentinel on a nonempty
move list whose child scores are all finite records a move: the first child
strictly improves on the sentinel. -/
theorem maxStep_bot_snd_isSome {cs : Mv → Score → Score} (beta : Score)
    (h : ∀ m a, ⊥ < cs m a) (m : Mv) (ms : List Mv) (alpha : Score) (bm : Option Mv) :
    ((maxStep cs beta (m :: ms) alpha ⊥ bm).2).isSome = true := by
  simp only [maxStep, if_pos (h m alpha)]
  by_cases hbr : beta ≤ max alpha (cs m alpha)
  · rw [if_pos hbr]
    rfl
  · rw [if_neg hbr]
    exact maxStep_snd_isSome cs beta ms _ _ _ rfl

/-- The minimizing loop never discards a move already recorded. -/
theorem minStep_snd_isSome (cs : Mv → Score → Score) (alpha : Score) :
    ∀ (ms : List Mv) (beta best : Score) (bm : Option Mv),
      bm.isSome = true → ((minStep cs alpha ms beta best bm).2).isSome = true := by
  intro ms
  induction ms with
  | nil => intro beta best bm h; simpa [minStep] using h
  | cons m ms ih =>
    intro beta best bm h
    simp only [minStep]
    by_cases hbr : min beta (cs m beta) ≤ alpha
    · rw [if_pos hbr]
      by_cases hb : cs m beta < best
      · simp [hb]
      · simpa [hb] using h
    · rw [if_neg hbr]
      apply ih
      by_cases hb : cs m beta < best
      · simp [hb]
      · simpa [hb] using h

/-- Starting the minimizing loop from the `math.inf` sentinel on a nonempty
move list whose child scores are all finite records a move. -/
theorem minStep_top_snd_isSome {cs : Mv → Score → Score} (alpha : Score)
    (h : ∀ m bb, cs m bb < ⊤) (m : Mv) (ms : List Mv) (beta : Score) (bm : Option Mv) :
    ((minStep cs alpha (m :: ms) beta ⊤ bm).2).isSome = true := by
  simp only [minStep, if_pos (h m beta)]
  by_cases hbr : min beta (cs m beta) ≤ alpha
  · rw [if_pos hbr]
    rfl
  · rw [if_neg hbr]
    exact minStep_snd_isSome cs alpha ms _ _ _ rfl

/-- The maximizing loop started from the sentinel on a nonempty list of
finite child scores returns a score above `⊥`. -/
theorem maxStep_bot_fst_pos {cs : Mv → Score → Score} (beta : Score)
    (h : ∀ m a, ⊥ < cs m a) (m : Mv) (ms : List Mv) (alpha : Score) (bm : Option Mv) :
    ⊥ < (maxStep cs beta (m :: ms) alpha ⊥ bm).1 := by
  simp only [maxStep, if_pos (h m alpha)]
  by_cases hbr : beta ≤ max alpha (cs m alpha)
  · rw [if_pos hbr]; exact h m alpha
  · rw [if_neg hbr]
    exact lt_of_lt_of_le (h m alpha) (maxStep_fst_ge cs beta ms _ _ _)

/-- The minimizing loop started from the sentinel on a nonempty list of
finite child scores returns a score below `⊤`. -/
theorem minStep_top_fst_lt {cs : Mv → Score → Score} (alpha : Score)
    (h : ∀ m bb, cs m bb < ⊤) (m : Mv) (ms : List Mv) (beta : Score) (bm : Option Mv) :
    (minStep cs alpha (m :: ms) beta ⊤ bm).1 < ⊤ := by
  simp only [minStep, if_pos (h m beta)]
  by_cases hbr : min beta (cs m beta) ≤ alpha
  · rw [if_pos hbr]; exact h m beta
  · rw [if_neg hbr]
    exact lt_of_le_of_lt (minStep_fst_le cs alpha ms _ _ _) (h m beta)

/-- Loops compute the same result for pointwise-equal child-score functions. -/
theorem maxStep_congr {cs1 cs2 : Mv → Score → Score} (beta : Score)
    (h : ∀ m a, cs1 m a = cs2 m a) :
    ∀ (ms : List Mv) (alpha best : Score) (bm : Option Mv),
      maxStep cs1 beta ms alpha best bm = maxStep cs2 beta ms alpha best bm := by
  intro ms
  induction ms with
  | nil => intro alpha best bm; rfl
  | cons m ms ih =>
    intro alpha best bm
    simp only [maxStep, h m alpha]
    by_cases hbr : beta ≤ max alpha (cs2 m alpha)
    · rw [if_pos hbr, if_pos hbr]
    · rw [if_neg hbr, if_neg hbr, ih]

/-- Loops compute the same result for pointwise-equal child-score functions. -/
theorem minStep_congr {cs1 cs2 : Mv → Score → Score} (alpha : Score)
    (h : ∀ m bb, cs1 m bb = cs2 m bb) :
    ∀ (ms : List Mv) (beta best : Score) (bm : Option Mv),
      minStep cs1 alpha ms beta best bm = minStep cs2 alpha ms beta best bm := by
  intro ms
  induction ms with
  | nil => intro beta best bm; rfl
  | cons m ms ih =>
    intro beta best bm
    simp only [minStep, h m beta]
    by_cases hbr : min beta (cs2 m beta) ≤ alpha
    · rw [if_pos hbr, if_pos hbr]
    · rw [if_neg hbr, if_neg hbr, ih]

/-- Every branch of `gameOverResult` yields a finite score. -/
theorem gameOverResult_fst_finite (E : Engine Pos Mv) (b : Pos) :
    ⊥ < (gameOverResult E b).1 ∧ (gameOverResult E b).1 < ⊤ := by
  unfold gameOverResult
  by_cases h1 : E.isCheckmate b = true
  · rw [if_pos h1]
    by_cases h2 : E.turn b = true
    · rw [if_pos h2]; exact ⟨bot_lt_toScore _, toScore_lt_top _⟩
    · rw [if_neg h2]; exact ⟨bot_lt_toScore _, toScore_lt_top _⟩
  · rw [if_neg h1]
    by_cases h2 : E.isStalemate b = true
    · rw [if_pos h2]; exact ⟨bot_lt_toScore _, toScore_lt_top _⟩
    · rw [if_neg h2]; exact ⟨bot_lt_toScore _, toScore_lt_top _⟩

/-- Every score `minimax` returns is finite: strictly between the two
sentinels.  Terminal scores and evaluations are rational constants, and each
internal node's score is one of its examined children's scores. -/
theorem minimax_fst_finite (E : Engine Pos Mv) :
    ∀ (d : Nat) (b : Pos) (alpha beta : Score) (mzx : Bool),
      ⊥ < (minimax E d b alpha beta mzx).1 ∧ (minimax E d b alpha beta mzx).1 < ⊤ := by
  intro d
  induction d with
  | zero =>
    intro b alpha beta mzx
    rw [minimax_zero]
    by_cases h : E.isGameOver b = true
    · rw [if_pos h]; exact gameOverResult_fst_finite E b
    · rw [if_neg h]; exact ⟨bot_lt_toScore _, toScore_lt_top _⟩
  | succ d ih =>
    intro b alpha beta mzx
    rw [minimax_succ]
    by_cases h : E.isGameOver b = true
    · rw [if_pos h]; exact gameOverResult_fst_finite E b
    · rw [if_neg h]
      by_cases h2 : (E.legalMoves b).isEmpty = true
      · rw [if_pos h2]; exact ⟨bot_lt_toScore _, toScore_lt_top _⟩
      · rw [if_neg h2]
        rcases hl : E.legalMoves b with _ | ⟨m, ms⟩
        · rw [hl] at h2; simp at h2
        · by_cases h3 : mzx = true
          · rw [if_pos h3]
            constructor
            · exact maxStep_bot_fst_pos beta (fun m a => (ih (E.push b m) a beta false).1) m ms alpha none
            · rcases maxStep_fst_mem (fun m a => (minimax E d (E.push b m) a beta false).1)
                beta (m :: ms) alpha ⊥ none with hm | ⟨m2, a2, hm⟩
              · rw [hm]; exact bot_lt_top
              · rw [hm]; exact (ih (E.push b m2) a2 beta false).2
          · rw [if_neg h3]
            constructor
            · rcases minStep_fst_mem (fun m bb => (minimax E d (E.push b m) alpha bb true).1)
                alpha (m :: ms) beta ⊤ none with hm | ⟨m2, b2, hm⟩
              · rw [hm]; exact bot_lt_top
              · rw [hm]; exact (ih (E.push b m2) alpha b2 true).1
            · exact minStep_top_fst_lt alpha (fun m bb => (ih (E.push b m) alpha bb true).2) m ms beta none

/-- Every score `fullMinimax` returns is finite. -/
theorem fullMinimax_fst_finite (E : Engine Pos Mv) :
    ∀ (d : Nat) (b : Pos) (mzx : Bool),
      ⊥ < (fullMinimax E d b mzx).1 ∧ (fullMinimax E d b mzx).1 < ⊤ := by
  intro d
  induction d with
  | zero =>
    intro b mzx
    rw [fullMinimax_zero]
    by_cases h : E.isGameOver b = true
    · rw [if_pos h]; exact gameOverResult_fst_finite E b
    · rw [if_neg h]; exact ⟨bot_lt_toScore _, toScore_lt_top _⟩
  | succ d ih =>
    intro b mzx
    rw [fullMinimax_succ]
    by_cases h : E.isGameOver b = true
    · rw [if_pos h]; exact gameOverResult_fst_finite E b
    · rw [if_neg h]
      by_cases h2 : (E.legalMoves b).isEmpty = true
      · rw [if_pos h2]; exact ⟨bot_lt_toScore _, toScore_lt_top _⟩
      · rw [if_neg h2]
        rcases hl : E.legalMoves b with _ | ⟨m, ms⟩
        · rw [hl] at h2; simp at h2
        · by_cases h3 : mzx = true
          · rw [if_pos h3]
            rw [fmaxStep_fst]
            constructor
            · rw [max_bot_left]
              exact bot_lt_bestOf (fun m2 => (ih (E.push b m2) false).1) m ms
            · rw [max_bot_left]
              exact bestOf_lt_top (fun m2 => (ih (E.push b m2) false).2) (m :: ms)
          · rw [if_neg h3]
            rw [fminStep_fst]
            constructor
            · rw [min_top_left]
              exact bot_lt_worstOf (fun m2 => (ih (E.push b m2) true).1) (m :: ms)
            · rw [min_top_left]
              exact worstOf_lt_top (fun m2 => (ih (E.push b m2) true).2) m ms

/-- Knuth-Moore style correctness of the maximizing loop: clamped to the
window, the pruned loop agrees with the running best joined with the true
(full-width) value of the remaining moves, provided each child's pruned
score `cs m a` agrees with its true score `fs m` in the same clamped sense
and the running best never exceeds `alpha`. -/
theorem maxStep_windowEq {cs : Mv → Score → Score} {fs : Mv → Score} {beta : Score}
    (hih : ∀ m a, a < beta → max a (min beta (cs m a)) = max a (min beta (fs m))) :
    ∀ (ms : List Mv) (a best : Score) (bm : Option Mv), a < beta → best ≤ a →
      max a (min beta (maxStep cs beta ms a best bm).1)
        = max a (min beta (max best (bestOf fs ms))) := by
  intro ms
  induction ms with
  | nil =>
    intro a best bm hab hba
    simp only [maxStep, bestOf, List.map_nil, List.foldr_nil]
    rw [max_eq_left bot_le]
  | cons m ms ih =>
    intro a best bm hab hba
    simp only [maxStep, if_lt_eq_max, bestOf, List.map_cons, List.foldr_cons] at ih ⊢
    by_cases hbr : beta ≤ max a (cs m a)
    · rw [if_pos hbr]
      dsimp only
      have hs : beta ≤ cs m a := by
        by_contra hc
        exact absurd hbr (not_le.mpr (max_lt hab (not_le.mp hc)))
      have hfs : beta ≤ fs m := by
        by_contra hc
        have h1 : max a (min beta (cs m a)) = beta := by
          rw [min_eq_left hs, max_eq_right hab.le]
        have h2 : max a (min beta (fs m)) < beta :=
          max_lt hab (lt_of_le_of_lt (min_le_right _ _) (not_le.mp hc))
        rw [hih m a hab] at h1
        rw [h1] at h2
        exact absurd h2 (lt_irrefl beta)
      rw [clamp_absorb_left _ hba hab, clamp_absorb_left _ hba hab,
        min_eq_left hs, min_eq_left (hfs.trans (le_max_left _ _))]
    · rw [if_neg hbr]
      have hab2 : max a (cs m a) < beta := not_le.mp hbr
      have hs : cs m a < beta := lt_of_le_of_lt (le_max_right a (cs m a)) hab2
      have hba2 : max best (cs m a) ≤ max a (cs m a) := max_le_max hba (le_refl _)
      have hR := maxStep_fst_ge cs beta ms (max a (cs m a)) (max best (cs m a))
        (if best < cs m a then some m else bm)
      have key := ih (max a (cs m a)) (max best (cs m a))
        (if best < cs m a then some m else bm) hab2 hba2
      have hsR : cs m a ≤ min beta
          (maxStep cs beta ms (max a (cs m a)) (max best (cs m a))
            (if best < cs m a then some m else bm)).1 :=
        le_min hs.le ((le_max_right best (cs m a)).trans hR)
      have step2 : max (max a (cs m a)) (min beta
          (maxStep cs beta ms (max a (cs m a)) (max best (cs m a))
            (if best < cs m a then some m else bm)).1)
          = max a (min beta
          (maxStep cs beta ms (max a (cs m a)) (max best (cs m a))
            (if best < cs m a then some m else bm)).1) := by
        rw [max_assoc, max_eq_right hsR]
      have ha2 : max a (cs m a) = max a (min beta (fs m)) := by
        rw [← hih m a hab, min_eq_right hs.le]
      rw [← step2, key, clamp_absorb_left _ hba2 hab2, clamp_absorb_left _ hba hab,
        min_max_distrib_left, ← max_assoc, ← ha2]

/-- Dual of `maxStep_windowEq` for the minimizing loop. -/
theorem minStep_windowEq {cs : Mv → Score → Score} {fs : Mv → Score} {alpha : Score}
    (hih : ∀ m bb, alpha < bb → min bb (max alpha (cs m bb)) = min bb (max alpha (fs m))) :
    ∀ (ms : List Mv) (bb best : Score) (bm : Option Mv), alpha < bb → bb ≤ best →
      min bb (max alpha (minStep cs alpha ms bb best bm).1)
        = min bb (max alpha (min best (worstOf fs ms))) := by
  intro ms
  induction ms with
  | nil =>
    intro bb best bm hab hba
    simp only [minStep, worstOf, List.map_nil, List.foldr_nil]
    rw [min_eq_left le_top]
  | cons m ms ih =>
    intro bb best bm hab hba
    simp only [minStep, if_lt_eq_min, worstOf, List.map_cons, List.foldr_cons] at ih ⊢
    by_cases hbr : min bb (cs m bb) ≤ alpha
    · rw [if_pos hbr]
      dsimp only
      have hs : cs m bb ≤ alpha := by
        by_contra hc
        exact absurd hbr (not_le.mpr (lt_min hab (not_le.mp hc)))
      have hfs : fs m ≤ alpha := by
        by_contra hc
        have h1 : min bb (max alpha (cs m bb)) = alpha := by
          rw [max_eq_left hs, min_eq_right hab.le]
        have h2 : alpha < min bb (max alpha (fs m)) :=
          lt_min hab (lt_of_lt_of_le (not_le.mp hc) (le_max_right _ _))
        rw [hih m bb hab] at h1
        rw [h1] at h2
        exact absurd h2 (lt_irrefl alpha)
      rw [clamp_absorb_right _ hba hab, clamp_absorb_right _ hba hab,
        max_eq_left hs, max_eq_left ((min_le_left _ _).trans hfs)]
    · rw [if_neg hbr]
      have hab2 : alpha < min bb (cs m bb) := not_le.mp hbr
      have hs : alpha < cs m bb := lt_of_lt_of_le hab2 (min_le_right bb (cs m bb))
      have hba2 : min bb (cs m bb) ≤ min best (cs m bb) := min_le_min hba (le_refl _)
      have hR := minStep_fst_le cs alpha ms (min bb (cs m bb)) (min best (cs m bb))
        (if cs m bb < best then some m else bm)
      have key := ih (min bb (cs m bb)) (min best (cs m bb))
        (if cs m bb < best then some m else bm) hab2 hba2
      have hsR : max alpha
          (minStep cs alpha ms (min bb (cs m bb)) (min best (cs m bb))
            (if cs m bb < best then some m else bm)).1 ≤ cs m bb :=
        max_le hs.le (hR.trans (min_le_right best (cs m bb)))
      have step2 : min (min bb (cs m bb)) (max alpha
          (minStep cs alpha ms (min bb (cs m bb)) (min best (cs m bb))
            (if cs m bb < best then some m else bm)).1)
          = min bb (max alpha
          (minStep cs alpha ms (min bb (cs m bb)) (min best (cs m bb))
            (if cs m bb < best then some m else bm)).1) := by
        rw [min_assoc, min_eq_right hsR]
      have ha2 : min bb (cs m bb) = min bb (max alpha (fs m)) := by
        rw [← hih m bb hab, max_eq_right hs.le]
      rw [← step2, key, clamp_absorb_right _ hba2 hab2, clamp_absorb_right _ hba hab,
        max_min_distrib_left, ← min_assoc, ← ha2]

/-- Clamped to its window, the pruning search agrees with full-width minimax:
the single-equation form of alpha-beta correctness, by induction on depth. -/
theorem minimax_windowEq (E : Engine Pos Mv) :
    ∀ (d : Nat) (b : Pos) (alpha beta : Score) (mzx : Bool), alpha < beta →
      max alpha (min beta (minimax E d b alpha beta mzx).1)
        = max alpha (min beta (fullMinimax E d b mzx).1) := by
  intro d
  induction d with
  | zero => intro b alpha beta mzx hab; rw [minimax_zero, fullMinimax_zero]
  | succ d ih =>
    intro b alpha beta mzx hab
    rw [minimax_succ, fullMinimax_succ]
    by_cases h : E.isGameOver b = true
    · rw [if_pos h, if_pos h]
    · rw [if_neg h, if_neg h]
      by_cases h2 : (E.legalMoves b).isEmpty = true
      · rw [if_pos h2, if_pos h2]
      · rw [if_neg h2, if_neg h2]
        by_cases h3 : mzx = true
        · rw [if_pos h3, if_pos h3]
          dsimp only
          rw [fmaxStep_fst, max_eq_right bot_le]
          have h4 := maxStep_windowEq
            (fun m a ha => ih (E.push b m) a beta false ha)
            (E.legalMoves b) alpha ⊥ none hab bot_le
          rw [max_eq_right bot_le] at h4
          exact h4
        · rw [if_neg h3, if_neg h3]
          dsimp only
          rw [fminStep_fst, min_eq_right le_top]
          rw [max_min_comm_of_le _ _ _ hab.le, max_min_comm_of_le _ _ _ hab.le]
          have hih : ∀ (m : Mv) (bb : Score), alpha < bb →
              min bb (max alpha (minimax E d (E.push b m) alpha bb true).1)
                = min bb (max alpha (fullMinimax E d (E.push b m) true).1) := by
            intro m bb hb
            have h5 := ih (E.push b m) alpha bb true hb
            rw [max_min_comm_of_le _ _ _ hb.le, max_min_comm_of_le _ _ _ hb.le] at h5
            exact h5
          have h4 := minStep_windowEq hih (E.legalMoves b) beta ⊤ none hab le_top
          rw [min_eq_right le_top] at h4
          exact h4

/-- On a game-over position the search returns the terminal result at every
depth: the terminal test comes before the depth test. -/
theorem minimax_gameOver (E : Engine Pos Mv) (d : Nat) (b : Pos)
    (alpha beta : Score) (mzx : Bool) (h : E.isGameOver b = true) :
    minimax E d b alpha beta mzx = gameOverResult E b := by
  cases d with
  | zero => rw [minimax_zero, if_pos h]
  | succ d => rw [minimax_succ, if_pos h]

/-- With the full window the pruning search scores exactly as full-width
minimax, at every depth. -/
theorem minimax_full_window (E : Engine Pos Mv) (d : Nat) (b : Pos) (mzx : Bool) :
    (minimax E d b ⊥ ⊤ mzx).1 = (fullMinimax E d b mzx).1 := by
  have h := minimax_windowEq E d b ⊥ ⊤ mzx bot_lt_top
  rw [min_eq_right le_top, min_eq_right le_top, max_eq_right bot_le,
    max_eq_right bot_le] at h
  exact h

/-- C1.  For every position and every depth at most 3, `minimax` called with
the full window `(-inf, inf)` returns the same score as the same search with
alpha-beta pruning disabled (`fullMinimax`): pruning never changes the
returned score.  (The proof factors through `minimax_windowEq`, which holds
at every depth.) -/
theorem pruning_full_window_equiv (E : Engine Pos Mv) (d : Nat) (b : Pos)
    (mzx : Bool) (hd : d ≤ 3) :
    (minimax E d b ⊥ ⊤ mzx).1 = (fullMinimax E d b mzx).1 :=
  minimax_full_window E d b mzx

/-- Witness for C1 at a concrete engine, position and depth 3. -/
theorem pruning_full_window_equiv_witness :
    (minimax CE 3 3 ⊥ ⊤ true).1 = (fullMinimax CE 3 3 true).1 :=
  pruning_full_window_equiv CE 3 3 true (by decide)

/-- C5.  On every checkmate position the search returns score `-9999` if the
side to move is White and `9999` otherwise, with no move, at any depth, any
window and either `maximizing` flag. -/
theorem checkmate_score (E : Engine Pos Mv) (d : Nat) (b : Pos)
    (alpha beta : Score) (mzx : Bool)
    (h1 : E.isGameOver b = true) (h2 : E.isCheckmate b = true) :
    minimax E d b alpha beta mzx
      = ((if E.turn b = true then toScore (-9999) else toScore 9999), none, b) := by
  rw [minimax_gameOver E d b alpha beta mzx h1, gameOverResult, if_pos h2]

/-- Witness for C5: the concrete checkmate position with White to move. -/
theorem checkmate_score_witness :
    minimax CE 5 0 ⊥ ⊤ true
      = ((if CE.turn 0 = true then toScore (-9999) else toScore 9999), none, 0) :=
  checkmate_score CE 5 0 ⊥ ⊤ true (by decide) (by decide)

/-- C6.  On every stalemate position the search returns score `-200` with no
move, regardless of depth, window, `maximizing` flag, or which side is
stalemated; on every other game-over position (not checkmate, not stalemate)
it returns score `0` with no move. -/
theorem stalemate_and_draw_score (E : Engine Pos Mv) (d : Nat) (b : Pos)
    (alpha beta : Score) (mzx : Bool) :
    (E.isGameOver b = true → E.isCheckmate b = false → E.isStalemate b = true →
      minimax E d b alpha beta mzx = (toScore (-200), none, b))
    ∧ (E.isGameOver b = true → E.isCheckmate b = false → E.isStalemate b = false →
      minimax E d b alpha beta mzx = (toScore 0, none, b)) := by
  constructor
  · intro h1 h2 h3
    rw [minimax_gameOver E d b alpha beta mzx h1, gameOverResult]
    simp [h2, h3]
  · intro h1 h2 h3
    rw [minimax_gameOver E d b alpha beta mzx h1, gameOverResult]
    simp [h2, h3]

/-- Witness for C6: the concrete stalemate position and the concrete
other-draw position. -/
theorem stalemate_and_draw_score_witness :
    minimax CE 4 1 ⊥ ⊤ true = (toScore (-200), none, 1)
      ∧ minimax CE 7 2 ⊥ ⊤ false = (toScore 0, none, 2) :=
  ⟨(stalemate_and_draw_score CE 4 1 ⊥ ⊤ true).1 (by decide) (by decide) (by decide),
    (stalemate_and_draw_score CE 7 2 ⊥ ⊤ false).2 (by decide) (by decide) (by decide)⟩

/-- C7.  At depth 0 on a non-terminal position, with the full window and
either `maximizing` flag, the search returns exactly the evaluator's score
and no move. -/
theorem depth_zero_eval (E : Engine Pos Mv) (b : Pos) (mzx : Bool)
    (h : E.isGameOver b = false) :
    (minimax E 0 b ⊥ ⊤ mzx).1 = toScore (evaluate E b).1
      ∧ (minimax E 0 b ⊥ ⊤ mzx).2.1 = none := by
  have h2 : ¬ E.isGameOver b = true := by simp [h]
  rw [minimax_zero, if_neg h2]
  exact ⟨rfl, rfl⟩

/-- Witness for C7 at a concrete non-terminal position. -/
theorem depth_zero_eval_witness :
    (minimax CE 0 7 ⊥ ⊤ true).1 = toScore (evaluate CE 7).1
      ∧ (minimax CE 0 7 ⊥ ⊤ true).2.1 = none :=
  depth_zero_eval CE 7 true (by decide)

/-- C2, failing input.  A depth-0 `minimax` call on a non-terminal position
with Black to move does not restore the position: `evaluate`'s final
`board.turn = not board.turn` always leaves the turn at White, so the
returned board differs from the input board (here the position `false`,
whose side to move is Black, comes back as `true`). -/
theorem position_not_restored_cex :
    BE.isGameOver false = false ∧ BE.turn false = false
      ∧ (minimax BE 0 false ⊥ ⊤ true).2.2 ≠ false := by
  refine ⟨rfl, rfl, ?_⟩
  decide

/-- C3, failing input.  `evaluate` on a position with Black to move returns
with the side-to-move flag set to White: the `# restore` assignment
`board.turn = not board.turn` runs right after `board.turn = chess.BLACK`,
so it always produces White.  On the engine `BE`, whose position is its
turn flag, the input `false` (Black to move) comes back as `true`. -/
theorem evaluate_turn_not_restored_cex :
    BE.turn false = false ∧ (evaluate BE false).2 = true
      ∧ BE.turn ((evaluate BE false).2) = true := by
  refine ⟨rfl, ?_, ?_⟩ <;> decide

/-- C8, counterexample.  A non-terminal position searched at depth 0 yields
no move: the claim "every input position that is not terminal always yields
a chosen move" fails at depth 0 (position 7 of the concrete engine is not
game over, yet the move component is `none`). -/
theorem nonterminal_no_move_cex :
    CE.isGameOver 7 = false ∧ (minimax CE 0 7 ⊥ ⊤ true).2.1 = none := by
  refine ⟨rfl, ?_⟩
  decide

/-- C8, amended.  `minimax` is a total function (the embedding returns a
defined triple on every input, mirroring that the source raises no
exception), and every call at depth at least 1 on a non-terminal position
with at least one legal move yields a chosen move, for any window and either
flag: the returned move is `some` by construction, the random fallback
filling it in when the loop recorded none. -/
theorem search_total_yields_move (E : Engine Pos Mv) (d : Nat) (b : Pos)
    (alpha beta : Score) (mzx : Bool) (hd : 1 ≤ d)
    (h1 : E.isGameOver b = false) (h2 : E.legalMoves b ≠ []) :
    ∃ mv : Mv, (minimax E d b alpha beta mzx).2.1 = some mv := by
  cases d with
  | zero => exact absurd hd (by omega)
  | succ d =>
    have h3 : ¬ E.isGameOver b = true := by simp [h1]
    have h4 : ¬ (E.legalMoves b).isEmpty = true := by
      simp only [List.isEmpty_eq_true]
      exact h2
    rw [minimax_succ, if_neg h3, if_neg h4]
    by_cases h5 : mzx = true
    · rw [if_pos h5]; exact ⟨_, rfl⟩
    · rw [if_neg h5]; exact ⟨_, rfl⟩

/-- Witness for the amended C8 at a concrete internal node. -/
theorem search_total_yields_move_witness :
    ∃ mv : Nat, (minimax CE 1 3 ⊥ ⊤ true).2.1 = some mv :=
  search_total_yields_move CE 1 3 ⊥ ⊤ true (by decide) (by decide) (by decide)

/-- C4, counterexample.  On a position with Black to move the mobility
contribution of `evaluate` is not `0.1 × (White legal count − Black legal
count)`: the code substitutes `0` for White's count instead of flipping the
turn to White and counting.  On engine `BE` at position `false` (Black to
move, White would have one legal move): the code's term is `0`, the claimed
term is `0.1`. -/
theorem mobility_term_cex :
    mobilityPart BE false ≠ specMobility BE false := by
  norm_num [mobilityPart, specMobility, whiteMobility, blackMobility, BE]

/-- C4, amended.  `evaluate`'s score decomposes as material plus the
mobility term plus centre control plus the check bonus; when White is to
move (and re-assigning the turn to its current value leaves the position
unchanged, as it does for `python-chess`) the mobility term is the claimed
`0.1 × (White legal count − Black legal count)`; but when Black is to move
White's count is replaced by `0`, so the term degenerates to
`−0.1 × (Black legal count)`. -/
theorem mobility_term_amended (E : Engine Pos Mv) (b : Pos) :
    (evaluate E b).1 = material E b + mobilityPart E b
        + centerScore E (afterMobility E b) + checkBonus E (afterMobility E b)
    ∧ (E.turn b = true → E.setTurn b true = b →
        mobilityPart E b = specMobility E b)
    ∧ (E.turn b = false →
        mobilityPart E b
          = -(0.1 * ((E.legalMoves (E.setTurn b false)).length : ℚ))) := by
  refine ⟨rfl, ?_, ?_⟩
  · intro h1 h2
    rw [mobilityPart, specMobility, whiteMobility, if_pos h1, h2, blackMobility]
  · intro h1
    have h2 : ¬ E.turn b = true := by simp [h1]
    rw [mobilityPart, whiteMobility, if_neg h2, blackMobility]
    push_cast
    ring

/-- Witness for the amended C4: both sides of the case split on the
concrete engine. -/
theorem mobility_term_amended_witness :
    mobilityPart BE true = specMobility BE true
      ∧ mobilityPart BE false
          = -(0.1 * ((BE.legalMoves (BE.setTurn false false)).length : ℚ)) :=
  ⟨(mobility_term_amended BE true).2.1 rfl rfl,
    (mobility_term_amended BE false).2.2 rfl⟩

/-- Replacing the choice function leaves the terminal branch unchanged. -/
theorem gameOverResult_choice (E : Engine Pos Mv) (c : List Mv → Mv) (b : Pos) :
    gameOverResult { E with choice := c } b = gameOverResult E b := rfl

/-- Replacing the choice function leaves the evaluation branch unchanged. -/
theorem evalResult_choice (E : Engine Pos Mv) (c : List Mv → Mv) (b : Pos) :
    evalResult { E with choice := c } b = evalResult E b := rfl

/-- The result of `minimax` does not depend on the engine's choice function
(the ambient random state): the fallback that consults it is unreachable,
because the first examined child always strictly improves on the sentinel. -/
theorem minimax_choice_irrelevant (E : Engine Pos Mv) (c : List Mv → Mv) :
    ∀ (d : Nat) (b : Pos) (alpha beta : Score) (mzx : Bool),
      minimax { E with choice := c } d b alpha beta mzx
        = minimax E d b alpha beta mzx := by
  intro d
  induction d with
  | zero => intro b alpha beta mzx; rfl
  | succ d ih =>
    intro b alpha beta mzx
    rw [minimax_succ, minimax_succ]
    dsimp only
    by_cases h : E.isGameOver b = true
    · rw [if_pos h, if_pos h]
      exact gameOverResult_choice E c b
    · rw [if_neg h, if_neg h]
      by_cases h2 : (E.legalMoves b).isEmpty = true
      · rw [if_pos h2, if_pos h2]
        exact evalResult_choice E c b
      · rw [if_neg h2, if_neg h2]
        rcases hl : E.legalMoves b with _ | ⟨mh, mt⟩
        · rw [hl] at h2; simp at h2
        · by_cases h3 : mzx = true
          · rw [if_pos h3, if_pos h3]
            have hcs : ∀ (m : Mv) (a : Score),
                (minimax { E with choice := c } d (E.push b m) a beta false).1
                  = (minimax E d (E.push b m) a beta false).1 :=
              fun m a => by rw [ih (E.push b m) a beta false]
            rw [maxStep_congr beta hcs (mh :: mt) alpha ⊥ none]
            have hsome := maxStep_bot_snd_isSome beta
              (fun m a => (minimax_fst_finite E d (E.push b m) a beta false).1)
              mh mt alpha (none : Option Mv)
            rcases Option.isSome_iff_exists.mp hsome with ⟨mv, hmv⟩
            rw [hmv]
            rfl
          · rw [if_neg h3, if_neg h3]
            have hcs : ∀ (m : Mv) (bb : Score),
                (minimax { E with choice := c } d (E.push b m) alpha bb true).1
                  = (minimax E d (E.push b m) alpha bb true).1 :=
              fun m bb => by rw [ih (E.push b m) alpha bb true]
            rw [minStep_congr alpha hcs (mh :: mt) beta ⊤ none]
            have hsome := minStep_top_snd_isSome alpha
              (fun m bb => (minimax_fst_finite E d (E.push b m) alpha bb true).2)
              mh mt beta (none : Option Mv)
            rcases Option.isSome_iff_exists.mp hsome with ⟨mv, hmv⟩
            rw [hmv]
            rfl

/-- Fail-soft, fail-low corner of alpha-beta with an unbounded upper window:
a score not above `alpha` bounds the true value from above. -/
theorem minimax_top_fail_low (E : Engine Pos Mv) (d : Nat) (b : Pos) (mzx : Bool)
    (a : Score) (ha : a < ⊤) (hle : (minimax E d b a ⊤ mzx).1 ≤ a) :
    (fullMinimax E d b mzx).1 ≤ a := by
  have h := minimax_windowEq E d b a ⊤ mzx ha
  rw [min_eq_right le_top, min_eq_right le_top, max_eq_left hle] at h
  have h2 := le_max_right a (fullMinimax E d b mzx).1
  rw [← h] at h2
  exact h2

/-- With an unbounded upper window, a score strictly above `alpha` is exact. -/
theorem minimax_top_exact (E : Engine Pos Mv) (d : Nat) (b : Pos) (mzx : Bool)
    (a : Score) (ha : a < ⊤) (hlt : a < (minimax E d b a ⊤ mzx).1) :
    (minimax E d b a ⊤ mzx).1 = (fullMinimax E d b mzx).1 := by
  have h := minimax_windowEq E d b a ⊤ mzx ha
  rw [min_eq_right le_top, min_eq_right le_top, max_eq_right hlt.le] at h
  by_cases h2 : (fullMinimax E d b mzx).1 ≤ a
  · rw [max_eq_left h2] at h
    exact absurd hlt (by rw [h]; exact lt_irrefl a)
  · rw [max_eq_right (not_le.mp h2).le] at h
    exact h

/-- Dual fail-high corner with an unbounded lower window. -/
theorem minimax_bot_fail_high (E : Engine Pos Mv) (d : Nat) (b : Pos) (mzx : Bool)
    (bb : Score) (hb : ⊥ < bb) (hge : bb ≤ (minimax E d b ⊥ bb mzx).1) :
    bb ≤ (fullMinimax E d b mzx).1 := by
  have h := minimax_windowEq E d b ⊥ bb mzx hb
  rw [max_eq_right bot_le, max_eq_right bot_le, min_eq_left hge] at h
  have h2 := min_le_right bb (fullMinimax E d b mzx).1
  rw [← h] at h2
  exact h2

/-- With an unbounded lower window, a score strictly below `beta` is exact. -/
theorem minimax_bot_exact (E : Engine Pos Mv) (d : Nat) (b : Pos) (mzx : Bool)
    (bb : Score) (hb : ⊥ < bb) (hlt : (minimax E d b ⊥ bb mzx).1 < bb) :
    (minimax E d b ⊥ bb mzx).1 = (fullMinimax E d b mzx).1 := by
  have h := minimax_windowEq E d b ⊥ bb mzx hb
  rw [max_eq_right bot_le, max_eq_right bot_le, min_eq_right hlt.le] at h
  by_cases h2 : bb ≤ (fullMinimax E d b mzx).1
  · rw [min_eq_left h2] at h
    exact absurd hlt (by rw [h]; exact lt_irrefl bb)
  · rw [min_eq_right (not_le.mp h2).le] at h
    exact h

/-- The maximum of a nonempty list of child scores is attained. -/
theorem bestOf_attained (fs : Mv → Score) :
    ∀ (m : Mv) (ms : List Mv), ∃ x, x ∈ m :: ms ∧ fs x = bestOf fs (m :: ms) := by
  intro m ms
  induction ms generalizing m with
  | nil =>
    refine ⟨m, List.mem_singleton_self m, ?_⟩
    simp only [bestOf, List.map_cons, List.map_nil, List.foldr_cons, List.foldr_nil]
    rw [max_eq_left bot_le]
  | cons m2 ms2 ih =>
    have hT : bestOf fs (m :: m2 :: ms2) = max (fs m) (bestOf fs (m2 :: ms2)) := by
      simp [bestOf]
    rcases le_total (bestOf fs (m2 :: ms2)) (fs m) with h | h
    · exact ⟨m, List.mem_cons_self m _, by rw [hT, max_eq_left h]⟩
    · rcases ih m2 with ⟨x, hx, hfx⟩
      exact ⟨x, List.mem_cons_of_mem m hx, by rw [hT, max_eq_right h]; exact hfx⟩

/-- The minimum of a nonempty list of child scores is attained. -/
theorem worstOf_attained (fs : Mv → Score) :
    ∀ (m : Mv) (ms : List Mv), ∃ x, x ∈ m :: ms ∧ fs x = worstOf fs (m :: ms) := by
  intro m ms
  induction ms generalizing m with
  | nil =>
    refine ⟨m, List.mem_singleton_self m, ?_⟩
    simp only [worstOf, List.map_cons, List.map_nil, List.foldr_cons, List.foldr_nil]
    rw [min_eq_left le_top]
  | cons m2 ms2 ih =>
    have hT : worstOf fs (m :: m2 :: ms2) = min (fs m) (worstOf fs (m2 :: ms2)) := by
      simp [worstOf]
    rcases le_total (fs m) (worstOf fs (m2 :: ms2)) with h | h
    · exact ⟨m, List.mem_cons_self m _, by rw [hT, min_eq_left h]⟩
    · rcases ih m2 with ⟨x, hx, hfx⟩
      exact ⟨x, List.mem_cons_of_mem m hx, by rw [hT, min_eq_right h]; exact hfx⟩

/-- Move tracking through the maximizing loop at the full window: with
`beta = ⊤`, alpha equal to the running best, finite child scores, and the
two fail-soft facts relating pruned child scores to true child scores, the
loop returns the join of its accumulator with the true value of the
remaining moves, and its recorded move is the first move attaining that
value (kept only when it strictly improves on the accumulator). -/
theorem maxStep_moves {cs : Mv → Score → Score} {fs : Mv → Score}
    (hfin : ∀ m a, ⊥ < cs m a ∧ cs m a < ⊤)
    (hlow : ∀ m a, a < ⊤ → cs m a ≤ a → fs m ≤ a)
    (hex : ∀ m a, a < ⊤ → a < cs m a → cs m a = fs m) :
    ∀ (ms : List Mv) (a : Score) (bm : Option Mv), a < ⊤ →
      maxStep cs ⊤ ms a a bm
        = (max a (bestOf fs ms),
            if a < bestOf fs ms then
              ms.find? (fun x => decide (fs x = bestOf fs ms)) else bm) := by
  intro ms
  induction ms with
  | nil =>
    intro a bm ha
    simp only [maxStep, bestOf, List.map_nil, List.foldr_nil]
    rw [max_eq_left bot_le, if_neg (not_lt.mpr bot_le)]
  | cons m ms ih =>
    intro a bm ha
    have hT : bestOf fs (m :: ms) = max (fs m) (bestOf fs ms) := by
      simp [bestOf]
    have hnb : ¬ (⊤ : Score) ≤ max a (cs m a) :=
      not_le.mpr (max_lt ha (hfin m a).2)
    simp only [maxStep]
    rw [if_neg hnb, hT]
    by_cases hcase : a < cs m a
    · have hse : cs m a = fs m := hex m a ha hcase
      rw [if_pos hcase, if_pos hcase, max_eq_right hcase.le,
        ih (cs m a) (some m) (hfin m a).2, ← hse]
      by_cases hsb : cs m a < bestOf fs ms
      · have hp : ¬ ((fun x => decide (fs x = bestOf fs ms)) m = true) := by
          simp only [decide_eq_true_eq]
          rw [← hse]
          exact ne_of_lt hsb
        have hfind : List.find? (fun x => decide (fs x = bestOf fs ms)) (m :: ms)
            = List.find? (fun x => decide (fs x = bestOf fs ms)) ms :=
          List.find?_cons_of_neg ms hp
        rw [max_eq_right hsb.le, if_pos hsb, if_pos (hcase.trans hsb), hfind,
          max_eq_right (hcase.trans hsb).le]
      · have hba : bestOf fs ms ≤ cs m a := not_lt.mp hsb
        have hp : (fun x => decide (fs x = cs m a)) m = true := by
          simp only [decide_eq_true_eq]
          exact hse.symm
        have hfind : List.find? (fun x => decide (fs x = cs m a)) (m :: ms)
            = some m :=
          List.find?_cons_of_pos ms hp
        rw [max_eq_left hba, if_neg hsb, max_eq_right hcase.le, if_pos hcase, hfind]
    · have hsa : cs m a ≤ a := not_lt.mp hcase
      have hfsm : fs m ≤ a := hlow m a ha hsa
      rw [if_neg hcase, if_neg hcase, max_eq_left hsa, ih a bm ha]
      by_cases hb : a < bestOf fs ms
      · have hp : ¬ ((fun x => decide (fs x = bestOf fs ms)) m = true) := by
          simp only [decide_eq_true_eq]
          exact ne_of_lt (lt_of_le_of_lt hfsm hb)
        have hfind : List.find? (fun x => decide (fs x = bestOf fs ms)) (m :: ms)
            = List.find? (fun x => decide (fs x = bestOf fs ms)) ms :=
          List.find?_cons_of_neg ms hp
        rw [max_eq_right (hfsm.trans hb.le), if_pos hb, if_pos hb, hfind]
      · have hba : bestOf fs ms ≤ a := not_lt.mp hb
        have hT2 : ¬ a < max (fs m) (bestOf fs ms) :=
          not_lt.mpr (max_le hfsm hba)
        rw [if_neg hb, if_neg hT2, max_eq_left hba, max_eq_left (max_le hfsm hba)]

/-- Dual move tracking through the minimizing loop at the full window. -/
theorem minStep_moves {cs : Mv → Score → Score} {fs : Mv → Score}
    (hfin : ∀ m bb, ⊥ < cs m bb ∧ cs m bb < ⊤)
    (hhigh : ∀ m bb, ⊥ < bb → bb ≤ cs m bb → bb ≤ fs m)
    (hex : ∀ m bb, ⊥ < bb → cs m bb < bb → cs m bb = fs m) :
    ∀ (ms : List Mv) (bb : Score) (bm : Option Mv), ⊥ < bb →
      minStep cs ⊥ ms bb bb bm
        = (min bb (worstOf fs ms),
            if worstOf fs ms < bb then
              ms.find? (fun x => decide (fs x = worstOf fs ms)) else bm) := by
  intro ms
  induction ms with
  | nil =>
    intro bb bm hb
    simp only [minStep, worstOf, List.map_nil, List.foldr_nil]
    rw [min_eq_left le_top, if_neg (not_lt.mpr le_top)]
  | cons m ms ih =>
    intro bb bm hb
    have hT : worstOf fs (m :: ms) = min (fs m) (worstOf fs ms) := by
      simp [worstOf]
    have hnb : ¬ min bb (cs m bb) ≤ (⊥ : Score) :=
      not_le.mpr (lt_min hb (hfin m bb).1)
    simp only [minStep]
    rw [if_neg hnb, hT]
    by_cases hcase : cs m bb < bb
    · have hse : cs m bb = fs m := hex m bb hb hcase
      rw [if_pos hcase, if_pos hcase, min_eq_right hcase.le,
        ih (cs m bb) (some m) (hfin m bb).1, ← hse]
      by_cases hsb : worstOf fs ms < cs m bb
      · have hp : ¬ ((fun x => decide (fs x = worstOf fs ms)) m = true) := by
          simp only [decide_eq_true_eq]
          rw [← hse]
          exact (ne_of_lt hsb).symm
        have hfind : List.find? (fun x => decide (fs x = worstOf fs ms)) (m :: ms)
            = List.find? (fun x => decide (fs x = worstOf fs ms)) ms :=
          List.find?_cons_of_neg ms hp
        rw [min_eq_right hsb.le, if_pos hsb, if_pos (hsb.trans hcase), hfind,
          min_eq_right (hsb.trans hcase).le]
      · have hba : cs m bb ≤ worstOf fs ms := not_lt.mp hsb
        have hp : (fun x => decide (fs x = cs m bb)) m = true := by
          simp only [decide_eq_true_eq]
          exact hse.symm
        have hfind : List.find? (fun x => decide (fs x = cs m bb)) (m :: ms)
            = some m :=
          List.find?_cons_of_pos ms hp
        rw [min_eq_left hba, if_neg hsb, min_eq_right hcase.le, if_pos hcase, hfind]
    · have hsa : bb ≤ cs m bb := not_lt.mp hcase
      have hfsm : bb ≤ fs m := hhigh m bb hb hsa
      rw [if_neg hcase, if_neg hcase, min_eq_left hsa, ih bb bm hb]
      by_cases hbw : worstOf fs ms < bb
      · have hp : ¬ ((fun x => decide (fs x = worstOf fs ms)) m = true) := by
          simp only [decide_eq_true_eq]
          exact (ne_of_lt (lt_of_lt_of_le hbw hfsm)).symm
        have hfind : List.find? (fun x => decide (fs x = worstOf fs ms)) (m :: ms)
            = List.find? (fun x => decide (fs x = worstOf fs ms)) ms :=
          List.find?_cons_of_neg ms hp
        rw [min_eq_right (hbw.le.trans hfsm), if_pos hbw, if_pos hbw, hfind]
      · have hba : bb ≤ worstOf fs ms := not_lt.mp hbw
        have hT2 : ¬ min (fs m) (worstOf fs ms) < bb :=
          not_lt.mpr (le_min hfsm hba)
        rw [if_neg hbw, if_neg hT2, min_eq_left hba, min_eq_left (le_min hfsm hba)]

/-- C10.  Tie-breaking at an internal node searched with the full window (as
the root call always is): the move returned by `minimax` is the first legal
move, in the rules engine's enumeration order, whose true (full-width) child
value attains the node's value — in particular, when two or more legal moves
tie for the best score, the earliest one is returned, because the running
best is replaced only on a strict improvement.  Both the maximizing and the
minimizing node are covered. -/
theorem minimax_tie_break_earliest (E : Engine Pos Mv) (d : Nat) (b : Pos)
    (h1 : E.isGameOver b = false) (h2 : E.legalMoves b ≠ []) :
    (minimax E (d + 1) b ⊥ ⊤ true).2.1
      = (E.legalMoves b).find?
          (fun m => decide ((fullMinimax E d (E.push b m) false).1
            = (fullMinimax E (d + 1) b true).1))
    ∧ (minimax E (d + 1) b ⊥ ⊤ false).2.1
      = (E.legalMoves b).find?
          (fun m => decide ((fullMinimax E d (E.push b m) true).1
            = (fullMinimax E (d + 1) b false).1)) := by
  have h3 : ¬ E.isGameOver b = true := by simp [h1]
  have h4 : ¬ (E.legalMoves b).isEmpty = true := by
    simp only [List.isEmpty_eq_true]
    exact h2
  constructor
  · have hnode : (fullMinimax E (d + 1) b true).1
        = bestOf (fun m => (fullMinimax E d (E.push b m) false).1) (E.legalMoves b) := by
      rw [fullMinimax_succ, if_neg h3, if_neg h4, if_pos rfl]
      dsimp only
      rw [fmaxStep_fst, max_eq_right bot_le]
    have hfin : ∀ (m : Mv) (a : Score),
        ⊥ < (minimax E d (E.push b m) a ⊤ false).1
          ∧ (minimax E d (E.push b m) a ⊤ false).1 < ⊤ :=
      fun m a => minimax_fst_finite E d (E.push b m) a ⊤ false
    have hlow : ∀ (m : Mv) (a : Score), a < ⊤ →
        (minimax E d (E.push b m) a ⊤ false).1 ≤ a →
          (fullMinimax E d (E.push b m) false).1 ≤ a :=
      fun m a ha hle => minimax_top_fail_low E d (E.push b m) false a ha hle
    have hex : ∀ (m : Mv) (a : Score), a < ⊤ →
        a < (minimax E d (E.push b m) a ⊤ false).1 →
          (minimax E d (E.push b m) a ⊤ false).1
            = (fullMinimax E d (E.push b m) false).1 :=
      fun m a ha hlt => minimax_top_exact E d (E.push b m) false a ha hlt
    have hloop := maxStep_moves hfin hlow hex (E.legalMoves b) ⊥ none bot_lt_top
    have hTpos : ⊥ < bestOf (fun m => (fullMinimax E d (E.push b m) false).1)
        (E.legalMoves b) := by
      rcases hl : E.legalMoves b with _ | ⟨mh, mt⟩
      · exact absurd hl h2
      · exact bot_lt_bestOf
          (fun m => (fullMinimax_fst_finite E d (E.push b m) false).1) mh mt
    have hatt : (List.find?
        (fun x => decide ((fullMinimax E d (E.push b x) false).1
          = bestOf (fun m => (fullMinimax E d (E.push b m) false).1)
              (E.legalMoves b)))
        (E.legalMoves b)).isSome = true := by
      rw [List.find?_isSome]
      rcases hl : E.legalMoves b with _ | ⟨mh, mt⟩
      · exact absurd hl h2
      · rcases bestOf_attained
            (fun m => (fullMinimax E d (E.push b m) false).1) mh mt with ⟨x, hx, hfx⟩
        refine ⟨x, hx, ?_⟩
        simp only [decide_eq_true_eq]
        exact hfx
    rcases Option.isSome_iff_exists.mp hatt with ⟨mv, hmv⟩
    rw [minimax_succ, if_neg h3, if_neg h4, if_pos rfl]
    dsimp only
    rw [hloop]
    dsimp only
    rw [if_pos hTpos, hnode, hmv]
    rfl
  · have h5 : ¬ (false = true) := Bool.false_ne_true
    have hnode : (fullMinimax E (d + 1) b false).1
        = worstOf (fun m => (fullMinimax E d (E.push b m) true).1) (E.legalMoves b) := by
      rw [fullMinimax_succ, if_neg h3, if_neg h4, if_neg h5]
      dsimp only
      rw [fminStep_fst, min_eq_right le_top]
    have hfin : ∀ (m : Mv) (bb : Score),
        ⊥ < (minimax E d (E.push b m) ⊥ bb true).1
          ∧ (minimax E d (E.push b m) ⊥ bb true).1 < ⊤ :=
      fun m bb => minimax_fst_finite E d (E.push b m) ⊥ bb true
    have hhigh : ∀ (m : Mv) (bb : Score), ⊥ < bb →
        bb ≤ (minimax E d (E.push b m) ⊥ bb true).1 →
          bb ≤ (fullMinimax E d (E.push b m) true).1 :=
      fun m bb hb hge => minimax_bot_fail_high E d (E.push b m) true bb hb hge
    have hex : ∀ (m : Mv) (bb : Score), ⊥ < bb →
        (minimax E d (E.push b m) ⊥ bb true).1 < bb →
          (minimax E d (E.push b m) ⊥ bb true).1
            = (fullMinimax E d (E.push b m) true).1 :=
      fun m bb hb hlt => minimax_bot_exact E d (E.push b m) true bb hb hlt
    have hloop := minStep_moves hfin hhigh hex (E.legalMoves b) ⊤ none bot_lt_top
    have hTlt : worstOf (fun m => (fullMinimax E d (E.push b m) true).1)
        (E.legalMoves b) < ⊤ := by
      rcases hl : E.legalMoves b with _ | ⟨mh, mt⟩
      · exact absurd hl h2
      · exact worstOf_lt_top
          (fun m => (fullMinimax_fst_finite E d (E.push b m) true).2) mh mt
    have hatt : (List.find?
        (fun x => decide ((fullMinimax E d (E.push b x) true).1
          = worstOf (fun m => (fullMinimax E d (E.push b m) true).1)
              (E.legalMoves b)))
        (E.legalMoves b)).isSome = true := by
      rw [List.find?_isSome]
      rcases hl : E.legalMoves b with _ | ⟨mh, mt⟩
      · exact absurd hl h2
      · rcases worstOf_attained
            (fun m => (fullMinimax E d (E.push b m) true).1) mh mt with ⟨x, hx, hfx⟩
        refine ⟨x, hx, ?_⟩
        simp only [decide_eq_true_eq]
        exact hfx
    rcases Option.isSome_iff_exists.mp hatt with ⟨mv, hmv⟩
    rw [minimax_succ, if_neg h3, if_neg h4, if_neg h5]
    dsimp only
    rw [hloop]
    dsimp only
    rw [if_pos hTlt, hnode, hmv]
    rfl

/-- Witness for C10 at a concrete internal node with two legal moves. -/
theorem minimax_tie_break_earliest_witness :
    ((minimax CE 1 3 ⊥ ⊤ true).2.1
      = (CE.legalMoves 3).find?
          (fun m => decide ((fullMinimax CE 0 (CE.push 3 m) false).1
            = (fullMinimax CE 1 3 true).1)))
    ∧ ((minimax CE 1 3 ⊥ ⊤ false).2.1
      = (CE.legalMoves 3).find?
          (fun m => decide ((fullMinimax CE 0 (CE.push 3 m) true).1
            = (fullMinimax CE 1 3 false).1))) :=
  minimax_tie_break_earliest CE 0 3 (by decide) (by decide)

/-- C9.  At every internal node (depth at least 1, non-terminal, nonempty
legal moves) the score `minimax` returns is a finite rational — the first
examined child always replaces the `±inf` sentinel — and the whole result is
independent of the choice function standing for the ambient random state,
the `random.choice` fallback being unreachable.  (Both facts hold for every
call, with no hypotheses.) -/
theorem score_finite_and_choice_independent (E : Engine Pos Mv)
    (c : List Mv → Mv) (d : Nat) (b : Pos) (alpha beta : Score) (mzx : Bool)
    (hd : 1 ≤ d) (h1 : E.isGameOver b = false) (h2 : E.legalMoves b ≠ []) :
    (∃ q : ℚ, (minimax E d b alpha beta mzx).1 = toScore q)
      ∧ minimax { E with choice := c } d b alpha beta mzx
          = minimax E d b alpha beta mzx :=
  ⟨exists_toScore (minimax_fst_finite E d b alpha beta mzx).1
      (minimax_fst_finite E d b alpha beta mzx).2,
    minimax_choice_irrelevant E c d b alpha beta mzx⟩

/-- Witness for C9 at a concrete internal node and choice function. -/
theorem score_finite_and_choice_independent_witness :
    (∃ q : ℚ, (minimax CE 2 3 ⊥ ⊤ true).1 = toScore q)
      ∧ minimax { CE with choice := fun _ => 0 } 2 3 ⊥ ⊤ true
          = minimax CE 2 3 ⊥ ⊤ true :=
  score_finite_and_choice_independent CE (fun _ => 0) 2 3 ⊥ ⊤ true
    (by decide) (by decide) (by decide)

end ChessAI
